import Mathlib

/-!
Verification of the per-key fixed-window rate limiter (`rate-limiter.go`,
package `dbl`).

Modelling conventions:
* `time.Time` and `time.Duration` are modelled as `Int` (nanosecond ticks on
  an absolute clock).  Go's `now.After(e.expiresAt)` is the strict comparison
  `e.expiresAt < now`; `now.Add(d)` is `now + d`; `time.Until(x)` is `x - now`.
* The Go map `entries : map[string]*rateLimiterEntry` is modelled as an
  association list from `String` to the entry value; `lookupEntry` is map
  lookup and `setEntry` is map store (in-place mutation of the entry pointed
  to by a key is observationally a store of the updated entry at that key).
* The mutexes serialise all operations touching one entry, so the observable
  behaviour is that of a sequential interleaving of complete operations; the
  embedding gives each operation the instant(s) at which it reads the clock
  as explicit arguments.  `Wait`'s retry loop reads `time.Now()` once per
  iteration, so it receives the list `ts` of successive observed instants;
  the call returns `none` when the loop is still blocked after the last
  supplied observation.
-/

/-- Embeds Go struct `rateLimiterEntry` (the mutex carries no data). -/
structure rateLimiterEntry where
  uses : Int
  maxUses : Int
  recovery : Int
  expiresAt : Int
  deriving DecidableEq, Repr

/-- Embeds Go struct `RateLimiter`: its `entries` map, as an association list. -/
abbrev RateLimiter := List (String × rateLimiterEntry)

/-- Embeds `NewRateLimiter`: the empty table. -/
def NewRateLimiter : RateLimiter := []

/-- Map lookup, `e, exists := rl.entries[key]`. -/
def lookupEntry : RateLimiter → String → Option rateLimiterEntry
  | [], _ => none
  | (k2, e) :: rest, key => if key = k2 then some e else lookupEntry rest key

/-- Map store, `rl.entries[key] = e` (also models in-place update of the
entry already bound to `key`). -/
def setEntry : RateLimiter → String → rateLimiterEntry → RateLimiter
  | [], key, e => [(key, e)]
  | (k2, e2) :: rest, key, e =>
    if key = k2 then (key, e) :: rest else (k2, e2) :: setEntry rest key e

/-- Embeds `Set` (lines 30-45): upsert of a key's configuration.  On a missing
key the Go struct literal leaves `uses` at its zero value and sets
`expiresAt: time.Now()`; on an existing entry only `maxUses` and `recovery`
are assigned. -/
def RateLimiter.Set (rl : RateLimiter) (key : String) (maxUses recovery now : Int) :
    RateLimiter :=
  match lookupEntry rl key with
  | none =>
    setEntry rl key { uses := 0, maxUses := maxUses, recovery := recovery, expiresAt := now }
  | some e => setEntry rl key { e with maxUses := maxUses, recovery := recovery }

/-- The body of `Allow` after the entry lock is taken (lines 60-72), which is
also each iteration of `Wait`'s loop (lines 87-100): the consume-or-reject
step of one entry at observation instant `now`. -/
def allowEntry (e : rateLimiterEntry) (now : Int) : Bool × rateLimiterEntry :=
  if e.expiresAt < now then
    (true, { e with uses := 1, expiresAt := now + e.recovery })
  else if e.uses < e.maxUses then
    (true, { e with uses := e.uses + 1 })
  else
    (false, e)

/-- Embeds `Allow` (lines 48-73): non-blocking check at instant `now`;
returns the boolean result and the table after the call. -/
def RateLimiter.Allow (rl : RateLimiter) (key : String) (now : Int) :
    Bool × RateLimiter :=
  match lookupEntry rl key with
  | none => (true, rl)
  | some e => ((allowEntry e now).1, setEntry rl key (allowEntry e now).2)

/-- The retry loop of `Wait` (lines 85-105) on one entry, over the successive
instants `ts` at which the loop reads the clock.  A denied iteration leaves
the entry unchanged and sleeps, so the loop recurses on the same entry with
the next observed instant; `none` means still blocked after the last
observation. -/
def waitEntry (e : rateLimiterEntry) : List Int → Option rateLimiterEntry
  | [] => none
  | now :: rest =>
    if e.expiresAt < now then
      some { e with uses := 1, expiresAt := now + e.recovery }
    else if e.uses < e.maxUses then
      some { e with uses := e.uses + 1 }
    else
      waitEntry e rest

/-- Embeds `Wait` (lines 76-106): blocking wait on `key`, observing the clock
at the instants `ts`; `some` is the table when the call returns, `none` means
the call has not yet returned after the last observation. -/
def RateLimiter.Wait (rl : RateLimiter) (key : String) (ts : List Int) :
    Option RateLimiter :=
  match lookupEntry rl key with
  | none => some rl
  | some e =>
    match waitEntry e ts with
    | none => none
    | some e2 => some (setEntry rl key e2)

/-- Embeds `WaitOrSet` (lines 109-127): on a missing key, creates the entry
with the first use consumed (`uses: 1`, `expiresAt: time.Now().Add(recovery)`,
read at instant `now`) and returns immediately; on an existing key, falls
through to `Wait`. -/
def RateLimiter.WaitOrSet (rl : RateLimiter) (key : String) (maxUses recovery now : Int)
    (ts : List Int) : Option RateLimiter :=
  match lookupEntry rl key with
  | none =>
    some (setEntry rl key
      { uses := 1, maxUses := maxUses, recovery := recovery, expiresAt := now + recovery })
  | some _ => RateLimiter.Wait rl key ts

/-- A sequence of `Allow` calls on the same key at the given instants:
the list of returned booleans and the final table. -/
def allowCalls (rl : RateLimiter) (key : String) : List Int → List Bool × RateLimiter
  | [] => ([], rl)
  | now :: rest =>
    let p := RateLimiter.Allow rl key now
    let q := allowCalls p.2 key rest
    (p.1 :: q.1, q.2)

/-- A sequence of consume-or-reject steps on one entry at the given instants. -/
def allowTimes (e : rateLimiterEntry) : List Int → List Bool × rateLimiterEntry
  | [] => ([], e)
  | now :: rest =>
    let p := allowEntry e now
    let q := allowTimes p.2 rest
    (p.1 :: q.1, q.2)

/-- One operation of the limiter's public interface, tagged with the clock
instants it observes. -/
inductive Op where
  | set (key : String) (maxUses recovery now : Int)
  | allow (key : String) (now : Int)
  | wait (key : String) (ts : List Int)
  | waitOrSet (key : String) (maxUses recovery now : Int) (ts : List Int)
  deriving Repr

/-- The table after one operation completes.  A blocking call that has not
returned within its observed instants has mutated nothing (denied iterations
leave the entry unchanged), so the table is unchanged in that case. -/
def runOp (rl : RateLimiter) : Op → RateLimiter
  | .set key m r now => RateLimiter.Set rl key m r now
  | .allow key now => (RateLimiter.Allow rl key now).2
  | .wait key ts => (RateLimiter.Wait rl key ts).getD rl
  | .waitOrSet key m r now ts => (RateLimiter.WaitOrSet rl key m r now ts).getD rl

/-- The table after a sequence of operations. -/
def runOps (rl : RateLimiter) : List Op → RateLimiter
  | [] => rl
  | op :: ops => runOps (runOp rl op) ops

/-- Side condition on one operation under which the quota invariant is
preserved: `Set` always passes `maxUses ≥ 1` (on an existing key, also at
least the entry's current `uses`, so a reconfiguration never drops `maxUses`
below `uses`), and `WaitOrSet` passes `maxUses ≥ 1` when it creates the
entry.  The `1 ≤ maxUses` requirement on `Set` of an existing key is needed
even when `uses ≤ maxUses` holds at that moment: a later lazy reset sets
`uses` to 1 regardless of `maxUses`. -/
def opSafe (rl : RateLimiter) : Op → Bool
  | .set key m _ _ =>
    match lookupEntry rl key with
    | none => decide (1 ≤ m)
    | some e => decide (1 ≤ m) && decide (e.uses ≤ m)
  | .allow _ _ => true
  | .wait _ _ => true
  | .waitOrSet key m _ _ _ =>
    match lookupEntry rl key with
    | none => decide (1 ≤ m)
    | some _ => true

/-- `opSafe` holding at every step of a sequence. -/
def safeSeq (rl : RateLimiter) : List Op → Bool
  | [] => true
  | op :: ops => opSafe rl op && safeSeq (runOp rl op) ops

/-- The per-entry quota invariant, strengthened with `1 ≤ maxUses` so that a
window rollover (which sets `uses` to 1) preserves it. -/
def entryInv (e : rateLimiterEntry) : Prop :=
  0 ≤ e.uses ∧ e.uses ≤ e.maxUses ∧ 1 ≤ e.maxUses

/-- Every entry present in the table satisfies the quota invariant. -/
def tableInv (rl : RateLimiter) : Prop :=
  ∀ key e, lookupEntry rl key = some e → entryInv e

theorem lookup_setEntry_self (rl : RateLimiter) (key : String) (e : rateLimiterEntry) :
    lookupEntry (setEntry rl key e) key = some e := by
  induction rl with
  | nil => simp [setEntry, lookupEntry]
  | cons p rest ih =>
    obtain ⟨k2, e2⟩ := p
    by_cases h : key = k2
    · simp [setEntry, lookupEntry, h]
    · simp [setEntry, lookupEntry, h, ih]

theorem lookup_setEntry_ne (rl : RateLimiter) (key k2 : String) (e : rateLimiterEntry)
    (h : k2 ≠ key) : lookupEntry (setEntry rl key e) k2 = lookupEntry rl k2 := by
  induction rl with
  | nil => simp [setEntry, lookupEntry, h]
  | cons p rest ih =>
    obtain ⟨k3, e3⟩ := p
    by_cases h2 : key = k3
    · subst h2
      simp [setEntry, lookupEntry, h]
    · by_cases h3 : k2 = k3 <;> simp [setEntry, lookupEntry, h2, h3, ih]

/-- C1 (counterexample): configure `maxUses = 1, recovery = 5` at instant 0;
a call at instant 5 rolls the window over (`uses = 1`, `expiresAt = 10`); the
quota is then exhausted, and a `CheckAllowed` call at the instant exactly
equal to `expiresAt` returns `false`, not `true` as the claim's
"equal to or after" requires: Go's `now.After(expiresAt)` is strict. -/
theorem allow_at_exact_expiry_denies :
    lookupEntry (RateLimiter.Allow (RateLimiter.Set NewRateLimiter "k" 1 5 0) "k" 5).2 "k" =
      some { uses := 1, maxUses := 1, recovery := 5, expiresAt := 10 } ∧
    (RateLimiter.Allow
      (RateLimiter.Allow (RateLimiter.Set NewRateLimiter "k" 1 5 0) "k" 5).2 "k" 10).1
      = false := by
  decide

/-- C1 (amended): a new window begins when an operation observes an instant
strictly after `expiresAt`; in particular, with the quota exhausted
(`uses = maxUses`), an `Allow` call at any instant strictly after `expiresAt`
returns `true` and resets the entry to `uses = 1`,
`expiresAt = now + recovery`. -/
theorem allow_reset_after_strict_expiry (rl : RateLimiter) (key : String)
    (e : rateLimiterEntry) (now : Int) (hk : lookupEntry rl key = some e)
    (hq : e.uses = e.maxUses) (hx : e.expiresAt < now) :
    (RateLimiter.Allow rl key now).1 = true ∧
    lookupEntry (RateLimiter.Allow rl key now).2 key =
      some { e with uses := 1, expiresAt := now + e.recovery } := by
  simp [RateLimiter.Allow, hk, allowEntry, hx, lookup_setEntry_self]

/-- C1 (witness for the amended theorem): on the table holding
`⟨uses=2, maxUses=2, recovery=5, expiresAt=10⟩` at key `"k"`, a call at
instant 11 grants and resets. -/
theorem allow_reset_after_strict_expiry_witness :
    (RateLimiter.Allow [("k", ⟨2, 2, 5, 10⟩)] "k" 11).1 = true ∧
    lookupEntry (RateLimiter.Allow [("k", ⟨2, 2, 5, 10⟩)] "k" 11).2 "k" =
      some { uses := 1, maxUses := 2, recovery := 5, expiresAt := 16 } :=
  allow_reset_after_strict_expiry [("k", ⟨2, 2, 5, 10⟩)] "k" ⟨2, 2, 5, 10⟩ 11
    (by decide) (by decide) (by decide)

/-- C2 (counterexample): configure `"k"` with `maxUses = 0` at instant 0;
`CheckAllowed` at instant 1 returns `true` — the lazy reset grants without
consulting the quota, so a non-positive `maxUses` does not permanently deny
all uses. -/
theorem nonpositive_max_grants_after_expiry :
    (RateLimiter.Allow (RateLimiter.Set NewRateLimiter "k" 0 5 0) "k" 1).1 = true := by
  decide

/-- C2 (amended): for an entry with `maxUses ≤ 0` (and the always-true
`0 ≤ uses`), `Allow` returns `false` at every instant not strictly after
`expiresAt`, but returns `true` at any instant strictly after `expiresAt`
(the lazy reset grants one use per window), so denial is not permanent. -/
theorem nonpositive_max_one_grant_per_window (rl : RateLimiter) (key : String)
    (e : rateLimiterEntry) (now : Int) (hk : lookupEntry rl key = some e)
    (hm : e.maxUses ≤ 0) (hu : 0 ≤ e.uses) :
    (¬ e.expiresAt < now → (RateLimiter.Allow rl key now).1 = false) ∧
    (e.expiresAt < now → (RateLimiter.Allow rl key now).1 = true) := by
  constructor
  · intro h
    have h2 : ¬ e.uses < e.maxUses := by omega
    simp [RateLimiter.Allow, hk, allowEntry, h, h2]
  · intro h
    simp [RateLimiter.Allow, hk, allowEntry, h]

/-- C2 (witness for the amended theorem): with the entry
`⟨0, 0, 5, 3⟩` at `"k"`, a call at instant 3 is denied and a call at
instant 4 is granted. -/
theorem nonpositive_max_one_grant_per_window_witness :
    (RateLimiter.Allow [("k", ⟨0, 0, 5, 3⟩)] "k" 3).1 = false ∧
    (RateLimiter.Allow [("k", ⟨0, 0, 5, 3⟩)] "k" 4).1 = true :=
  ⟨(nonpositive_max_one_grant_per_window [("k", ⟨0, 0, 5, 3⟩)] "k" ⟨0, 0, 5, 3⟩ 3
      (by decide) (by decide) (by decide)).1 (by decide),
   (nonpositive_max_one_grant_per_window [("k", ⟨0, 0, 5, 3⟩)] "k" ⟨0, 0, 5, 3⟩ 4
      (by decide) (by decide) (by decide)).2 (by decide)⟩

/-- C6: `WaitOrSet` on a missing key returns immediately (the result is
`some`, independent of the observed instants `ts`), creating the entry with
`uses = 1`, the given configuration, and `expiresAt = now + recovery`. -/
theorem waitOrSet_absent (rl : RateLimiter) (key : String) (m r now : Int)
    (h : lookupEntry rl key = none) :
    ∀ ts, RateLimiter.WaitOrSet rl key m r now ts =
        some (setEntry rl key
          { uses := 1, maxUses := m, recovery := r, expiresAt := now + r }) ∧
      lookupEntry
        (setEntry rl key { uses := 1, maxUses := m, recovery := r, expiresAt := now + r })
        key = some { uses := 1, maxUses := m, recovery := r, expiresAt := now + r } := by
  intro ts
  refine ⟨?_, lookup_setEntry_self rl key _⟩
  simp [RateLimiter.WaitOrSet, h]

/-- C6 (witness): on the empty table, `WaitOrSet "k" 3 5` at instant 2
creates `⟨1, 3, 5, 7⟩`. -/
theorem waitOrSet_absent_witness :
    RateLimiter.WaitOrSet NewRateLimiter "k" 3 5 2 [] =
        some (setEntry NewRateLimiter "k" { uses := 1, maxUses := 3, recovery := 5, expiresAt := 7 }) ∧
      lookupEntry (setEntry NewRateLimiter "k" { uses := 1, maxUses := 3, recovery := 5, expiresAt := 7 }) "k" =
        some { uses := 1, maxUses := 3, recovery := 5, expiresAt := 7 } :=
  waitOrSet_absent NewRateLimiter "k" 3 5 2 rfl []

/-- C7: `WaitOrSet` on a key already in the table is exactly `Wait` on that
key — the same resulting table for every `maxUses`, `recovery` and creation
instant argument, so the passed configuration has no effect. -/
theorem waitOrSet_existing (rl : RateLimiter) (key : String) (m r now : Int)
    (ts : List Int) (e : rateLimiterEntry) (h : lookupEntry rl key = some e) :
    RateLimiter.WaitOrSet rl key m r now ts = RateLimiter.Wait rl key ts := by
  simp [RateLimiter.WaitOrSet, h]

/-- C7 (witness): on a table holding `"k"`, `WaitOrSet` with arguments
`maxUses = 9, recovery = 9` coincides with `Wait`. -/
theorem waitOrSet_existing_witness :
    RateLimiter.WaitOrSet [("k", ⟨0, 2, 5, 0⟩)] "k" 9 9 0 [1] =
      RateLimiter.Wait [("k", ⟨0, 2, 5, 0⟩)] "k" [1] :=
  waitOrSet_existing [("k", ⟨0, 2, 5, 0⟩)] "k" 9 9 0 [1] ⟨0, 2, 5, 0⟩ (by decide)

/-- C8: `Set` is an upsert: on a missing key it creates
`uses = 0, expiresAt = now` with the given configuration; on an existing
entry it replaces only `maxUses` and `recovery`, keeping `uses` and
`expiresAt`; entries at other keys are untouched (and no key is ever
removed). -/
theorem set_upsert (rl : RateLimiter) (key : String) (m r now : Int) :
    (lookupEntry rl key = none →
      lookupEntry (RateLimiter.Set rl key m r now) key =
        some { uses := 0, maxUses := m, recovery := r, expiresAt := now }) ∧
    (∀ e, lookupEntry rl key = some e →
      lookupEntry (RateLimiter.Set rl key m r now) key =
        some { uses := e.uses, maxUses := m, recovery := r, expiresAt := e.expiresAt }) ∧
    (∀ k2, k2 ≠ key →
      lookupEntry (RateLimiter.Set rl key m r now) k2 = lookupEntry rl k2) := by
  refine ⟨?_, ?_, ?_⟩
  · intro h
    simp [RateLimiter.Set, h, lookup_setEntry_self]
  · intro e h
    simp [RateLimiter.Set, h, lookup_setEntry_self]
  · intro k2 hne
    cases h : lookupEntry rl key with
    | none => simp [RateLimiter.Set, h, lookup_setEntry_ne rl key k2 _ hne]
    | some e => simp [RateLimiter.Set, h, lookup_setEntry_ne rl key k2 _ hne]

/-- C8 (witness): creating `"k"` on the empty table at instant 4 gives
`⟨0, 2, 5, 4⟩`; reconfiguring it to `maxUses = 7, recovery = 9` keeps
`uses = 0` and `expiresAt = 4`; key `"other"` stays absent. -/
theorem set_upsert_witness :
    lookupEntry (RateLimiter.Set NewRateLimiter "k" 2 5 4) "k" =
      some { uses := 0, maxUses := 2, recovery := 5, expiresAt := 4 } ∧
    lookupEntry (RateLimiter.Set (RateLimiter.Set NewRateLimiter "k" 2 5 4) "k" 7 9 6) "k" =
      some { uses := 0, maxUses := 7, recovery := 9, expiresAt := 4 } ∧
    lookupEntry (RateLimiter.Set NewRateLimiter "k" 2 5 4) "other" = none :=
  ⟨(set_upsert NewRateLimiter "k" 2 5 4).1 rfl,
   (set_upsert (RateLimiter.Set NewRateLimiter "k" 2 5 4) "k" 7 9 6).2.1 ⟨0, 2, 5, 4⟩ (by decide),
   by
    have h := (set_upsert NewRateLimiter "k" 2 5 4).2.2 "other" (by decide)
    simpa using h⟩

/-- C9: for a key absent from the table, `Allow` returns `true` and leaves
the table untouched — hence any sequence of `Allow` calls returns all `true`
with the table unchanged — and `Wait` returns immediately with the table
unchanged, for any observed instants. -/
theorem unconfigured_unlimited (rl : RateLimiter) (key : String)
    (h : lookupEntry rl key = none) :
    (∀ now, RateLimiter.Allow rl key now = (true, rl)) ∧
    (∀ ns, allowCalls rl key ns = (List.replicate ns.length true, rl)) ∧
    (∀ ts, RateLimiter.Wait rl key ts = some rl) := by
  refine ⟨?_, ?_, ?_⟩
  · intro now
    simp [RateLimiter.Allow, h]
  · intro ns
    induction ns with
    | nil => simp [allowCalls]
    | cons now rest ih => simp [allowCalls, RateLimiter.Allow, h, ih, List.replicate]
  · intro ts
    simp [RateLimiter.Wait, h]

/-- C9 (witness): on a table holding only `"other"`, three `Allow` calls on
`"k"` all return `true` without touching the table, and `Wait` returns at
once. -/
theorem unconfigured_unlimited_witness :
    allowCalls [("other", ⟨0, 1, 5, 0⟩)] "k" [3, 4, 5] =
      ([true, true, true], [("other", ⟨0, 1, 5, 0⟩)]) ∧
    RateLimiter.Wait [("other", ⟨0, 1, 5, 0⟩)] "k" [3] =
      some [("other", ⟨0, 1, 5, 0⟩)] :=
  ⟨(unconfigured_unlimited [("other", ⟨0, 1, 5, 0⟩)] "k" (by decide)).2.1 [3, 4, 5],
   (unconfigured_unlimited [("other", ⟨0, 1, 5, 0⟩)] "k" (by decide)).2.2 [3]⟩

/-- C10: whenever the observed instant is strictly after `expiresAt`, the
consume-or-reject step grants and resets (`uses = 1`,
`expiresAt = now + recovery`) without consulting `uses` or `maxUses` — the
entry is arbitrary, so this holds even when `uses ≥ maxUses` or
`maxUses ≤ 0`; the same holds for the first iteration of `Wait`'s loop. -/
theorem allow_expired_grants_unconditionally (e : rateLimiterEntry) (now : Int)
    (h : e.expiresAt < now) :
    allowEntry e now = (true, { e with uses := 1, expiresAt := now + e.recovery }) ∧
    ∀ ts, waitEntry e (now :: ts) =
      some { e with uses := 1, expiresAt := now + e.recovery } := by
  constructor
  · simp [allowEntry, h]
  · intro ts
    simp [waitEntry, h]

/-- C10 (witness): the entry `⟨5, 0, 7, 3⟩` (exhausted and with
`maxUses = 0`) observed at instant 4 grants and resets to `⟨1, 0, 7, 11⟩`. -/
theorem allow_expired_grants_unconditionally_witness :
    allowEntry ⟨5, 0, 7, 3⟩ 4 = (true, ⟨1, 0, 7, 11⟩) ∧
    waitEntry ⟨5, 0, 7, 3⟩ [4] = some ⟨1, 0, 7, 11⟩ :=
  ⟨(allow_expired_grants_unconditionally ⟨5, 0, 7, 3⟩ 4 (by decide)).1,
   (allow_expired_grants_unconditionally ⟨5, 0, 7, 3⟩ 4 (by decide)).2 []⟩

theorem allowCalls_eq_allowTimes (key : String) (ts : List Int) :
    ∀ (rl : RateLimiter) (e : rateLimiterEntry), lookupEntry rl key = some e →
      (allowCalls rl key ts).1 = (allowTimes e ts).1 := by
  induction ts with
  | nil => intro rl e _; rfl
  | cons x rest ih =>
    intro rl e h
    have h1 : RateLimiter.Allow rl key x =
        ((allowEntry e x).1, setEntry rl key (allowEntry e x).2) := by
      simp [RateLimiter.Allow, h]
    have h2 := ih (setEntry rl key (allowEntry e x).2) (allowEntry e x).2
      (lookup_setEntry_self rl key _)
    simp [allowCalls, allowTimes, h1, h2]

theorem allowTimes_exhaust (ts : List Int) :
    ∀ e : rateLimiterEntry, (∀ x ∈ ts, ¬ e.expiresAt < x) →
      e.uses + (ts.length : Int) = e.maxUses + 1 → e.uses ≤ e.maxUses →
      (allowTimes e ts).1 = List.replicate (ts.length - 1) true ++ [false] := by
  induction ts with
  | nil =>
    intro e _ hlen hle
    simp at hlen
    omega
  | cons x rest ih =>
    intro e hall hlen hle
    have hx : ¬ e.expiresAt < x := hall x (by simp)
    simp only [List.length_cons] at hlen
    push_cast at hlen
    by_cases hu : e.uses < e.maxUses
    · have hstep : allowEntry e x = (true, { e with uses := e.uses + 1 }) := by
        simp [allowEntry, hx, hu]
      have hrec := ih { e with uses := e.uses + 1 }
        (by intro y hy; exact hall y (by simp [hy]))
        (by simp; omega) (by simp; omega)
      have hpos : 1 ≤ rest.length := by omega
      obtain ⟨n, hn⟩ : ∃ n, rest.length = n + 1 := ⟨rest.length - 1, by omega⟩
      simp [allowTimes, hstep, hrec, hn, List.replicate_succ]
    · have heq : ¬ e.expiresAt < x ∧ ¬ e.uses < e.maxUses := ⟨hx, hu⟩
      have hstep : allowEntry e x = (false, e) := by
        simp [allowEntry, hx, hu]
      have hzero : rest.length = 0 := by omega
      have hnil : rest = [] := List.length_eq_zero.mp hzero
      subst hnil
      simp [allowTimes, hstep]

/-- C4: for a key whose entry holds `maxUses = N ≥ 1`, `recovery = D > 0`,
a run of `N + 1` `Allow` calls whose first instant starts a fresh window
(strictly after the old `expiresAt`) and whose remaining `N` instants all
fall inside that window (at most `t1 + D`) returns `true` for the first `N`
calls and `false` for the `(N+1)`th. -/
theorem window_quota (rl : RateLimiter) (key : String) (N D E u0 t1 : Int)
    (ts : List Int) (hk : lookupEntry rl key = some ⟨u0, N, D, E⟩)
    (hN : 1 ≤ N) (hD : 0 < D) (hlen : (ts.length : Int) = N) (ht1 : E < t1)
    (hts : ∀ x ∈ ts, x ≤ t1 + D) :
    (allowCalls rl key (t1 :: ts)).1 = List.replicate ts.length true ++ [false] := by
  rw [allowCalls_eq_allowTimes key (t1 :: ts) rl ⟨u0, N, D, E⟩ hk]
  have hstep : allowEntry ⟨u0, N, D, E⟩ t1 = (true, ⟨1, N, D, t1 + D⟩) := by
    simp [allowEntry, ht1]
  have hrec := allowTimes_exhaust ts ⟨1, N, D, t1 + D⟩
    (by intro y hy; simp; exact hts y hy)
    (by simp; omega) (by simp; omega)
  have hpos : 1 ≤ ts.length := by omega
  obtain ⟨n, hn⟩ : ∃ n, ts.length = n + 1 := ⟨ts.length - 1, by omega⟩
  simp only [hn] at hrec
  simp [allowTimes, hstep, hrec, hn, List.replicate_succ]

/-- C4 (witness): `maxUses = 2, recovery = 100`, old window ended at `-1`;
calls at instants `0, 1, 2` return `[true, true, false]`. -/
theorem window_quota_witness :
    (allowCalls [("k", ⟨0, 2, 100, -1⟩)] "k" [0, 1, 2]).1 = [true, true, false] :=
  window_quota [("k", ⟨0, 2, 100, -1⟩)] "k" 2 100 (-1) 0 0 [1, 2]
    (by decide) (by decide) (by decide) (by decide) (by decide) (by decide)

theorem waitEntry_isSome_of_progress (e : rateLimiterEntry) :
    ∀ ts : List Int, (∃ x ∈ ts, e.expiresAt < x) → (waitEntry e ts).isSome = true := by
  intro ts
  induction ts with
  | nil => intro h; simp at h
  | cons s rest ih =>
    intro h
    obtain ⟨x, hx, hlt⟩ := h
    by_cases h1 : e.expiresAt < s
    · simp [waitEntry, h1]
    · by_cases h2 : e.uses < e.maxUses
      · simp [waitEntry, h1, h2]
      · simp only [waitEntry, if_neg h1, if_neg h2]
        apply ih
        rcases List.mem_cons.mp hx with heq | hmem
        · exact absurd (heq ▸ hlt) h1
        · exact ⟨x, hmem, hlt⟩

theorem waitEntry_blocked (e : rateLimiterEntry) (hx : e.maxUses ≤ e.uses) :
    ∀ ts : List Int, (∀ x ∈ ts, ¬ e.expiresAt < x) → waitEntry e ts = none := by
  intro ts
  induction ts with
  | nil => intro _; rfl
  | cons s rest ih =>
    intro h
    have h1 : ¬ e.expiresAt < s := h s (by simp)
    have h2 : ¬ e.uses < e.maxUses := by omega
    simp only [waitEntry, if_neg h1, if_neg h2]
    exact ih (fun y hy => h y (by simp [hy]))

theorem waitEntry_first_reset (e : rateLimiterEntry) (hx : e.maxUses ≤ e.uses) :
    ∀ ts1 : List Int, (∀ s ∈ ts1, ¬ e.expiresAt < s) → ∀ x, e.expiresAt < x →
      ∀ ts2, waitEntry e (ts1 ++ x :: ts2) =
        some { e with uses := 1, expiresAt := x + e.recovery } := by
  intro ts1
  induction ts1 with
  | nil =>
    intro _ x hlt ts2
    simp [waitEntry, hlt]
  | cons s rest ih =>
    intro h x hlt ts2
    have h1 : ¬ e.expiresAt < s := h s (by simp)
    have h2 : ¬ e.uses < e.maxUses := by omega
    simp only [List.cons_append, waitEntry, if_neg h1, if_neg h2]
    exact ih (fun y hy => h y (by simp [hy])) x hlt ts2

/-- C5: for a key present in the table with positive `recovery`: `Wait`
returns once some observed instant lies strictly after `expiresAt` (no
failure return, never blocks given eventual clock progress); with the quota
exhausted it is still blocked as long as every observed instant is within
the window (it blocks at least the remaining time); and it then succeeds by
consuming at the first instant strictly past the window, resetting the entry
to `uses = 1`, `expiresAt = x + recovery`. -/
theorem wait_terminates (rl : RateLimiter) (key : String) (e : rateLimiterEntry)
    (hk : lookupEntry rl key = some e) (hD : 0 < e.recovery) :
    (∀ ts, (∃ x ∈ ts, e.expiresAt < x) → (RateLimiter.Wait rl key ts).isSome = true) ∧
    (e.maxUses ≤ e.uses → ∀ ts, (∀ x ∈ ts, ¬ e.expiresAt < x) →
      RateLimiter.Wait rl key ts = none) ∧
    (e.maxUses ≤ e.uses → ∀ ts1, (∀ s ∈ ts1, ¬ e.expiresAt < s) →
      ∀ x, e.expiresAt < x → ∀ ts2,
        RateLimiter.Wait rl key (ts1 ++ x :: ts2) =
          some (setEntry rl key { e with uses := 1, expiresAt := x + e.recovery })) := by
  refine ⟨?_, ?_, ?_⟩
  · intro ts h
    have h2 := waitEntry_isSome_of_progress e ts h
    cases hw : waitEntry e ts with
    | none => rw [hw] at h2; simp at h2
    | some e2 => simp [RateLimiter.Wait, hk, hw]
  · intro hexh ts h
    simp [RateLimiter.Wait, hk, waitEntry_blocked e hexh ts h]
  · intro hexh ts1 h x hlt ts2
    simp [RateLimiter.Wait, hk, waitEntry_first_reset e hexh ts1 h x hlt ts2]

/-- C5 (witness): entry `⟨2, 2, 5, 10⟩` at `"k"` (quota exhausted, window
ends at 10): observing instant 11 the call returns; observing only 9 and 10
it is still blocked; observing 10 then 11 it returns with the entry reset to
`⟨1, 2, 5, 16⟩`. -/
theorem wait_terminates_witness :
    (RateLimiter.Wait [("k", ⟨2, 2, 5, 10⟩)] "k" [11]).isSome = true ∧
    RateLimiter.Wait [("k", ⟨2, 2, 5, 10⟩)] "k" [9, 10] = none ∧
    RateLimiter.Wait [("k", ⟨2, 2, 5, 10⟩)] "k" [10, 11] =
      some (setEntry [("k", ⟨2, 2, 5, 10⟩)] "k" ⟨1, 2, 5, 16⟩) :=
  ⟨(wait_terminates [("k", ⟨2, 2, 5, 10⟩)] "k" ⟨2, 2, 5, 10⟩ (by decide) (by decide)).1
      [11] ⟨11, by simp, by decide⟩,
   (wait_terminates [("k", ⟨2, 2, 5, 10⟩)] "k" ⟨2, 2, 5, 10⟩ (by decide) (by decide)).2.1
      (by decide) [9, 10] (by decide),
   (wait_terminates [("k", ⟨2, 2, 5, 10⟩)] "k" ⟨2, 2, 5, 10⟩ (by decide) (by decide)).2.2
      (by decide) [10] (by decide) 11 (by decide) []⟩

theorem entryInv_allowEntry (e : rateLimiterEntry) (now : Int) (h : entryInv e) :
    entryInv (allowEntry e now).2 := by
  obtain ⟨h0, h1, h2⟩ := h
  by_cases hx : e.expiresAt < now
  · simp [allowEntry, hx, entryInv]
    omega
  · by_cases hu : e.uses < e.maxUses
    · simp [allowEntry, hx, hu, entryInv]
      omega
    · simp [allowEntry, hx, hu, entryInv]
      omega

theorem entryInv_waitEntry (e : rateLimiterEntry) (h : entryInv e) :
    ∀ ts e2, waitEntry e ts = some e2 → entryInv e2 := by
  obtain ⟨h0, h1, h2⟩ := h
  intro ts
  induction ts with
  | nil =>
    intro e2 hw
    simp [waitEntry] at hw
  | cons s rest ih =>
    intro e2 hw
    by_cases hx : e.expiresAt < s
    · simp [waitEntry, hx] at hw
      rw [← hw]
      simp [entryInv]
      omega
    · by_cases hu : e.uses < e.maxUses
      · simp [waitEntry, hx, hu] at hw
        rw [← hw]
        simp [entryInv]
        omega
      · simp only [waitEntry, if_neg hx, if_neg hu] at hw
        exact ih e2 hw

theorem tableInv_setEntry (rl : RateLimiter) (key : String) (e : rateLimiterEntry)
    (ht : tableInv rl) (he : entryInv e) : tableInv (setEntry rl key e) := by
  intro k2 e2 h2
  by_cases hk : k2 = key
  · subst hk
    rw [lookup_setEntry_self] at h2
    rw [Option.some.injEq] at h2
    rw [← h2]
    exact he
  · rw [lookup_setEntry_ne rl key k2 e hk] at h2
    exact ht k2 e2 h2

theorem tableInv_wait_getD (rl : RateLimiter) (key : String) (ts : List Int)
    (ht : tableInv rl) : tableInv ((RateLimiter.Wait rl key ts).getD rl) := by
  cases hl : lookupEntry rl key with
  | none =>
    simp [RateLimiter.Wait, hl]
    exact ht
  | some e =>
    cases hw : waitEntry e ts with
    | none =>
      simp [RateLimiter.Wait, hl, hw]
      exact ht
    | some e2 =>
      simp [RateLimiter.Wait, hl, hw]
      exact tableInv_setEntry rl key e2 ht (entryInv_waitEntry e (ht key e hl) ts e2 hw)

theorem tableInv_runOp (rl : RateLimiter) (op : Op) (ht : tableInv rl)
    (hs : opSafe rl op = true) : tableInv (runOp rl op) := by
  cases op with
  | set key m r now =>
    cases hl : lookupEntry rl key with
    | none =>
      have hm : (1 : Int) ≤ m := by
        simpa [opSafe, hl] using hs
      have hrun : runOp rl (Op.set key m r now) =
          setEntry rl key { uses := 0, maxUses := m, recovery := r, expiresAt := now } := by
        simp [runOp, RateLimiter.Set, hl]
      rw [hrun]
      refine tableInv_setEntry rl key _ ht ?_
      simp [entryInv]
      omega
    | some e =>
      have hm : (1 : Int) ≤ m ∧ e.uses ≤ m := by
        simpa [opSafe, hl] using hs
      have he := ht key e hl
      have hrun : runOp rl (Op.set key m r now) =
          setEntry rl key { e with maxUses := m, recovery := r } := by
        simp [runOp, RateLimiter.Set, hl]
      rw [hrun]
      refine tableInv_setEntry rl key _ ht ?_
      obtain ⟨h0, _, _⟩ := he
      simp [entryInv]
      omega
  | allow key now =>
    cases hl : lookupEntry rl key with
    | none =>
      have hrun : runOp rl (Op.allow key now) = rl := by
        simp [runOp, RateLimiter.Allow, hl]
      rw [hrun]
      exact ht
    | some e =>
      have hrun : runOp rl (Op.allow key now) = setEntry rl key (allowEntry e now).2 := by
        simp [runOp, RateLimiter.Allow, hl]
      rw [hrun]
      exact tableInv_setEntry rl key _ ht (entryInv_allowEntry e now (ht key e hl))
  | wait key ts =>
    exact tableInv_wait_getD rl key ts ht
  | waitOrSet key m r now ts =>
    cases hl : lookupEntry rl key with
    | none =>
      have hm : (1 : Int) ≤ m := by
        simpa [opSafe, hl] using hs
      have hrun : runOp rl (Op.waitOrSet key m r now ts) =
          setEntry rl key
            { uses := 1, maxUses := m, recovery := r, expiresAt := now + r } := by
        simp [runOp, RateLimiter.WaitOrSet, hl]
      rw [hrun]
      refine tableInv_setEntry rl key _ ht ?_
      simp [entryInv]
      omega
    | some e =>
      have hrun : runOp rl (Op.waitOrSet key m r now ts) =
          (RateLimiter.Wait rl key ts).getD rl := by
        simp [runOp, RateLimiter.WaitOrSet, hl]
      rw [hrun]
      exact tableInv_wait_getD rl key ts ht

theorem runOps_tableInv (ops : List Op) :
    ∀ rl, tableInv rl → safeSeq rl ops = true → tableInv (runOps rl ops) := by
  induction ops with
  | nil =>
    intro rl ht _
    exact ht
  | cons op rest ih =>
    intro rl ht hs
    rw [safeSeq, Bool.and_eq_true] at hs
    exact ih (runOp rl op) (tableInv_runOp rl op ht hs.1) hs.2

/-- C3 (counterexample): the single operation
`WaitOrConfigureThenConsume "k" (maxUses := 0) (recovery := 5)` at instant 0
on the fresh limiter leaves the entry `⟨uses = 1, maxUses = 0, ...⟩`, so
`uses ≤ maxUses` fails immediately after the operation completes. -/
theorem quota_invariant_violated :
    lookupEntry (runOps NewRateLimiter [Op.waitOrSet "k" 0 5 0 []]) "k" =
      some { uses := 1, maxUses := 0, recovery := 5, expiresAt := 5 } ∧
    ¬ ((1 : Int) ≤ 0) := by
  decide

/-- C3 (amended): starting from the fresh limiter, for every sequence of
operations in which every `Configure` passes `maxUses ≥ 1` (and, on an
existing key, also at least the entry's current `uses`) and every
`WaitOrConfigureThenConsume` on a missing key passes `maxUses ≥ 1` (the
`safeSeq` side condition), every entry in the table satisfies
`0 ≤ uses ≤ maxUses` after the sequence completes (hence, applying this to
every prefix, after each operation).  The `maxUses ≥ 1` requirement on
`Configure` of an existing key cannot be dropped: `Set k 1 5` then
`Set k 0 7` (with `uses = 0 ≤ 0`) then `Allow k` after expiry ends with
`uses = 1 > maxUses = 0`. -/
theorem quota_invariant (ops : List Op) (hs : safeSeq NewRateLimiter ops = true) :
    ∀ key e, lookupEntry (runOps NewRateLimiter ops) key = some e →
      0 ≤ e.uses ∧ e.uses ≤ e.maxUses := by
  intro key e h
  have ht : tableInv NewRateLimiter := by
    intro k2 e2 h2
    simp [lookupEntry, NewRateLimiter] at h2
  have h3 := runOps_tableInv ops NewRateLimiter ht hs key e h
  exact ⟨h3.1, h3.2.1⟩

/-- C3 (witness): the safe sequence configure `"a"` (`maxUses = 2`), check
`"a"` once, first-touch `"b"`, then wait on `"a"`, ends with `"a"` holding
`⟨2, 2, 10, 11⟩`, which satisfies `0 ≤ 2 ≤ 2`. -/
theorem quota_invariant_witness :
    (0 : Int) ≤ 2 ∧ (2 : Int) ≤ 2 :=
  quota_invariant
    [Op.set "a" 2 10 0, Op.allow "a" 1, Op.waitOrSet "b" 1 5 0 [], Op.wait "a" [3]]
    (by decide) "a" ⟨2, 2, 10, 11⟩ (by decide)
